import Mathlib

/-!
Verification model of the MindNexus document chunking and indexing core.

The definitions below are a shallow embedding of
`src/backend/src/infrastructure/document_processing/processor.py`
(`DocumentProcessor`, `MarkdownPreprocessor`, `SemanticDocumentProcessor`),
`src/backend/src/infrastructure/vector_store/chroma_store.py`
(`ChromaVectorStore.hybrid_search`) and
`src/backend/src/application/use_cases/document_use_case.py`
(`DocumentUseCase.index_document`).

Text is modelled as `List Char`.  Python's bounded recursions are embedded
with an explicit fuel argument that is instantiated with the exact measure
the Python recursion descends on (number of separators, length of the text),
so that all definitions are structurally recursive and kernel-computable;
fuel-indifference theorems below certify that the fuel never runs out.
-/

abbrev Str := List Char

/-- Python truthiness of `s.strip()`: a string is blank iff every character
is whitespace (`str.strip()` of such a string is empty/falsy). -/
def strBlank (s : Str) : Bool := s.all Char.isWhitespace

/-- Python `s.strip()`: remove leading and trailing whitespace. -/
def pyStrip (s : Str) : Str :=
  ((s.dropWhile Char.isWhitespace).reverse.dropWhile Char.isWhitespace).reverse

/-- Locate the leftmost occurrence of `sep` in `text`; returns
`some (pre, suf)` with `text = pre ++ sep ++ suf` splitting at the first
occurrence, `none` if `sep` does not occur.  (For `sep = []` it reports a
match at position 0 on nonempty text, like Python's substring search.) -/
def splitFirst (sep : Str) : Str → Option (Str × Str)
  | [] => none
  | c :: rest =>
    if sep.isPrefixOf (c :: rest) then some ([], (c :: rest).drop sep.length)
    else
      match splitFirst sep rest with
      | none => none
      | some (pre, suf) => some (c :: pre, suf)

/-- Python `sep in text` (substring containment; `"" in text` is `True`). -/
def containsSub (sep text : Str) : Bool :=
  sep.isEmpty || (splitFirst sep text).isSome

/-- Python `text.find(pat)`: index of the leftmost occurrence, `-1` if none;
`find` of the empty pattern is `0`. -/
def pyFind (pat text : Str) : Int :=
  if pat.isEmpty then 0
  else
    match splitFirst pat text with
    | some (pre, _) => pre.length
    | none => -1

/-- Python `text.split(sep)` for a nonempty `sep`: split at every
non-overlapping occurrence, left to right, keeping empty pieces.
`fuel ≥ text.length` always suffices (each found occurrence strictly
shortens the remaining suffix). -/
def pySplit (sep : Str) : Nat → Str → List Str
  | 0, text => [text]
  | fuel + 1, text =>
    match splitFirst sep text with
    | none => [text]
    | some (pre, suf) => pre :: pySplit sep fuel suf

/-- `[text[i:i+cs] for i in range(0, len(text), cs)]`: fixed-width slices.
`fuel ≥ text.length` suffices for `cs ≥ 1`. -/
def charSlices (cs : Nat) : Nat → Str → List Str
  | _, [] => []
  | 0, _ => []
  | fuel + 1, text => text.take cs :: charSlices cs fuel (text.drop cs)

/-- Python `a or b` where `a` is an `Optional[int]` argument: both `None`
and `0` are falsy and fall through to the default. -/
def pyOrNat (x : Option Nat) (d : Nat) : Nat :=
  match x with
  | none => d
  | some v => if v = 0 then d else v

/-- The separator preference list of `DocumentProcessor.chunk_text`:
`["\n\n", "\n", ". ", "。", "! ", "? ", "; ", ", ", " ", ""]`. -/
def separators : List Str :=
  ["\n\n".toList, "\n".toList, ". ".toList, "。".toList, "! ".toList,
   "? ".toList, "; ".toList, ", ".toList, " ".toList, []]

/-- Separator selection in `_recursive_split`: default to the last separator,
then take the first one occurring in the text (`""` always occurs, so the
default only matters for separator lists not ending in `""`). -/
def chooseSep (seps : List Str) (text : Str) : Str :=
  match seps.find? (fun s => containsSub s text) with
  | some s => s
  | none => (seps.getLast?).getD []

/-- The merge loop of `DocumentProcessor._recursive_split`: greedily
re-accumulate consecutive non-blank splits into `cur` while the joined
text fits `cs`; on overflow flush `cur` and either recurse into an
oversized split (when more separators remain, `canRec`) or start a new
buffer from it.  `recurse` is the recursive call at the remaining
separator list. -/
def mergeSplits (cs : Nat) (sep : Str) (canRec : Bool)
    (recurse : Str → List Str) :
    List Str → List Str → Str → List Str
  | [], chunks, cur => if cur ≠ [] then chunks ++ [cur] else chunks
  | split :: rest, chunks, cur =>
    if strBlank split then mergeSplits cs sep canRec recurse rest chunks cur
    else
      let test := if cur ≠ [] then cur ++ sep ++ split else split
      if test.length ≤ cs then mergeSplits cs sep canRec recurse rest chunks test
      else
        let chunks1 := if cur ≠ [] then chunks ++ [cur] else chunks
        if cs < split.length ∧ canRec = true then
          let sub := recurse split
          mergeSplits cs sep canRec recurse rest (chunks1 ++ sub.dropLast)
            ((sub.getLast?).getD [])
        else mergeSplits cs sep canRec recurse rest chunks1 split

/-- `DocumentProcessor._recursive_split(text, seps, cs)`.  The Python
recursion descends on the separator list (`separators[1:]`, guarded by
`len(separators) > 1`); `fuel := seps.length` mirrors it exactly. -/
def recursiveSplitF (cs : Nat) : Nat → List Str → Str → List Str
  | 0, _, _ => []
  | fuel + 1, seps, text =>
    if text.length ≤ cs then (if strBlank text then [] else [text])
    else
      let sep := chooseSep seps text
      let splits :=
        if sep = [] then charSlices cs text.length text
        else pySplit sep text.length text
      mergeSplits cs sep (decide (1 < seps.length))
        (fun t => recursiveSplitF cs fuel seps.tail t) splits [] []

/-- `DocumentProcessor._recursive_split` at its canonical fuel. -/
def recursiveSplit (cs : Nat) (seps : List Str) (text : Str) : List Str :=
  recursiveSplitF cs seps.length seps text

/-- A `TextChunk` as produced by the document processor. -/
structure TextChunk where
  content : Str
  start_char : Nat
  end_char : Nat
  chunk_index : Nat
  parent_index : Option Nat := none
  section_title : Option Str := none
deriving DecidableEq, Repr

/-- The overlap/position loop of `DocumentProcessor.chunk_text`: for `i > 0`
prepend the last `co` characters of the previous raw chunk (the whole
previous chunk if it is not longer than `co`), then recover the position by
searching the original text for the chunk's first 50 characters (defaulting
to 0 when absent). -/
def buildChunks (co : Nat) (text : Str) (chunks : List Str) : List TextChunk :=
  (List.range chunks.length).map fun i =>
    let chunk0 := chunks.getD i []
    let chunk :=
      if 0 < i ∧ 0 < co then
        let prev := chunks.getD (i - 1) []
        (if co < prev.length then prev.drop (prev.length - co) else prev) ++ chunk0
      else chunk0
    let f := pyFind (chunk.take 50) text
    let s : Nat := if f = -1 then 0 else f.toNat
    { content := chunk, start_char := s, end_char := s + chunk.length,
      chunk_index := i }

/-- Constructor configuration of `DocumentProcessor`. -/
structure DocumentProcessor where
  chunk_size : Nat := 500
  chunk_overlap : Nat := 50
  min_chunk_size : Nat := 100
deriving DecidableEq, Repr

/-- `DocumentProcessor.chunk_text(text, chunk_size, chunk_overlap)`.
Note the source resolves the optional overrides with Python `or`, so an
explicit `0` falls back to the constructor value. -/
def DocumentProcessor.chunk_text (p : DocumentProcessor) (text : Str)
    (chunkSize? chunkOverlap? : Option Nat) : List TextChunk :=
  let cs := pyOrNat chunkSize? p.chunk_size
  let co := pyOrNat chunkOverlap? p.chunk_overlap
  if text = [] then []
  else if text.length < p.min_chunk_size then
    [{ content := text, start_char := 0, end_char := text.length,
       chunk_index := 0 }]
  else buildChunks co text (recursiveSplit cs separators text)

/-- `DocumentProcessor.chunk_with_parents(text, parent_chunk_size,
child_chunk_size, child_overlap)`: parent chunks from `chunk_text` with
`chunk_overlap=0` (which Python's `or` silently replaces by the constructor
overlap), then children of each parent re-split from the parent's content,
with offsets translated by the parent's `start_char` and `parent_index`
pointing at the parent's `chunk_index`. -/
def DocumentProcessor.chunk_with_parents (p : DocumentProcessor) (text : Str)
    (parentSize childSize childOverlap : Nat) :
    List TextChunk × List TextChunk :=
  let parents := p.chunk_text text (some parentSize) (some 0)
  let children := parents.flatMap fun parent =>
    (p.chunk_text parent.content (some childSize) (some childOverlap)).map
      fun child =>
        { child with
          start_char := child.start_char + parent.start_char,
          end_char := child.start_char + parent.start_char + child.content.length,
          parent_index := some parent.chunk_index }
  (parents, children)

/-! ## MarkdownPreprocessor and SemanticDocumentProcessor -/

/-- A section produced by `MarkdownPreprocessor.split_by_headers`. -/
structure MdSection where
  title : Str
  level : Nat
  content : Str
  start_char : Nat
deriving DecidableEq, Repr

/-- Match of the header pattern `^(#{1,6})\s+(.+)$` on one line (no newline
inside a line): 1–6 leading `#`, at least one whitespace character, and at
least one further character; yields the header level and the stripped
title (regex backtracking can hand a trailing whitespace character to the
`(.+)` group, which stripping erases, so the title is the stripped
remainder after the hash run). -/
def parseHeader (line : Str) : Option (Nat × Str) :=
  let n := (line.takeWhile (· = '#')).length
  let rest := line.drop n
  if 1 ≤ n ∧ n ≤ 6 ∧ (rest.take 1).all Char.isWhitespace ∧ 2 ≤ rest.length then
    some (n, pyStrip rest)
  else none

/-- Loop body of `split_by_headers`: a header line flushes the current
section (if its content is non-blank) and starts a new one containing the
header line itself; other lines are appended; every line contributes
`len(line) + 1` to the running character offset. -/
def splitByHeadersGo : List Str → MdSection → Nat → List MdSection → List MdSection
  | [], cur, _, acc => if ¬strBlank cur.content then acc ++ [cur] else acc
  | line :: rest, cur, pos, acc =>
    match parseHeader line with
    | some (lvl, title) =>
      let acc1 := if ¬strBlank cur.content then acc ++ [cur] else acc
      splitByHeadersGo rest ⟨title, lvl, line ++ ['\n'], pos⟩
        (pos + line.length + 1) acc1
    | none =>
      splitByHeadersGo rest { cur with content := cur.content ++ line ++ ['\n'] }
        (pos + line.length + 1) acc

/-- `MarkdownPreprocessor.split_by_headers(content)`. -/
def split_by_headers (content : Str) : List MdSection :=
  let secs := splitByHeadersGo (pySplit ['\n'] content.length content)
    ⟨[], 0, [], 0⟩ 0 []
  if secs = [] then [⟨[], 0, content, 0⟩] else secs

/-- The semantic chunking backend as seen by
`SemanticDocumentProcessor.chunk_text`: `none` models a backend that cannot
be constructed (`_get_semantic_chunker` returns `None`); a constructed
backend maps a section's content to `some` list of chunk texts, or to
`none` when `split_text` raises. -/
abbrev SemBackend := Option (Str → Option (List Str))

/-- Per-section step of `SemanticDocumentProcessor.chunk_text`, threading
the running chunk index: short sections are kept verbatim (stripped, with
the end offset still computed from the unstripped length); otherwise the
semantic backend is tried and on unavailability or failure the section is
re-chunked with the parent class's recursive `chunk_text`, re-based to the
section start. -/
def semSectionStep (p : DocumentProcessor) (backend : SemBackend)
    (chunkSize? chunkOverlap? : Option Nat) (text : Str)
    (st : List TextChunk × Nat) (sec : MdSection) : List TextChunk × Nat :=
  let (acc, idx) := st
  if (pyStrip sec.content).length < p.min_chunk_size then
    if ¬strBlank sec.content then
      (acc ++ [{ content := pyStrip sec.content, start_char := sec.start_char,
                 end_char := sec.start_char + sec.content.length,
                 chunk_index := idx, section_title := some sec.title }], idx + 1)
    else (acc, idx)
  else
    let semDocs : Option (List Str) :=
      match backend with
      | none => none
      | some ch => ch sec.content
    match semDocs with
    | some docs =>
      docs.foldl (fun st doc =>
        let f := pyFind (doc.take 50) text
        let s : Nat := if f = -1 then sec.start_char else f.toNat
        (st.1 ++ [{ content := doc, start_char := s, end_char := s + doc.length,
                    chunk_index := st.2, section_title := some sec.title }],
         st.2 + 1)) (acc, idx)
    | none =>
      let fallback := p.chunk_text sec.content chunkSize? chunkOverlap?
      fallback.foldl (fun st fc =>
        (st.1 ++ [{ fc with
                    chunk_index := st.2,
                    start_char := fc.start_char + sec.start_char,
                    end_char := fc.start_char + sec.start_char + fc.content.length,
                    section_title := some sec.title }],
         st.2 + 1)) (acc, idx)

/-- `SemanticDocumentProcessor.chunk_text(text, chunk_size, chunk_overlap)`:
the same short-text shortcut as the base class, then header splitting and
per-section semantic chunking with the running index. -/
def SemanticDocumentProcessor.chunk_text (p : DocumentProcessor)
    (backend : SemBackend) (text : Str)
    (chunkSize? chunkOverlap? : Option Nat) : List TextChunk :=
  if text = [] then []
  else if text.length < p.min_chunk_size then
    [{ content := text, start_char := 0, end_char := text.length,
       chunk_index := 0 }]
  else
    ((split_by_headers text).foldl
      (semSectionStep p backend chunkSize? chunkOverlap? text) ([], 0)).1

/-! ## ChromaVectorStore.hybrid_search -/

/-- A formatted semantic search result (`{id, content, metadata, score}`;
the metadata dict plays no role in hybrid re-ranking and is omitted). -/
structure SearchResult where
  id : Nat
  content : Str
  score : ℚ
deriving DecidableEq, Repr

/-- Python `s.lower()` (ASCII-relevant part). -/
def lowerStr (s : Str) : Str := s.map Char.toLower

/-- Python `s.split()` with no argument: whitespace-delimited words,
empty pieces discarded. -/
def pyWords (s : Str) : List Str :=
  (s.splitOnP Char.isWhitespace).filter (· ≠ [])

/-- `set(query.lower().split())` — the distinct lowercase query terms
(lists stand in for sets; only membership and cardinality are used). -/
def queryTermSet (query : Str) : List Str := (pyWords (lowerStr query)).dedup

/-- The keyword boost of `hybrid_search`:
`sum(1 for term in query_terms if term in content_lower) / len(query_terms)`,
`0` for an empty term set.  Note each term is tested by *substring*
containment in the lowercased content. -/
def keywordScore (queryTerms : List Str) (contentLower : Str) : ℚ :=
  if queryTerms = [] then 0
  else ((queryTerms.filter (fun t => containsSub t contentLower)).length : ℚ) /
    (queryTerms.length : ℚ)

/-- Stable descending insertion: place `x` before the first element with a
score not exceeding `x`'s (Python `list.sort(key=..., reverse=True)` is a
stable descending sort; any stable sort computes the same list). -/
def insertDesc (x : SearchResult) : List SearchResult → List SearchResult
  | [] => [x]
  | y :: ys => if x.score < y.score then y :: insertDesc x ys else x :: y :: ys

/-- Stable descending sort by `score`. -/
def sortDesc : List SearchResult → List SearchResult
  | [] => []
  | x :: xs => insertDesc x (sortDesc xs)

/-- `ChromaVectorStore.hybrid_search(query, query_embedding, top_k, filters,
semantic_weight)`.  The vector search over the collection is external; it is
modelled by `store : Nat → List SearchResult` mapping a requested `top_k`
to the scored candidates it returns, and `hybrid_search` requests
`top_k * 2` of them. -/
def hybrid_search (store : Nat → List SearchResult) (query : Str)
    (topK : Nat) (w : ℚ) : List SearchResult :=
  let semanticResults := store (topK * 2)
  let queryTerms := queryTermSet query
  let rescored := semanticResults.map fun r =>
    { r with score := w * r.score + (1 - w) * keywordScore queryTerms (lowerStr r.content) }
  (sortDesc rescored).take topK

/-- Modelled from the spec (§4.6 wording of C4): keyword score as the
fraction of distinct query terms that are *members of the term set* of the
lowercased content (`|queryTerms ∩ termsIn(content.lower())| / |queryTerms|`). -/
def keywordScoreTermSet (queryTerms : List Str) (contentLower : Str) : ℚ :=
  if queryTerms = [] then 0
  else ((queryTerms.filter (fun t => t ∈ (pyWords contentLower).dedup)).length : ℚ) /
    (queryTerms.length : ℚ)

/-- The hybrid search as the claim C4 words it (termwise set intersection
instead of substring containment); used to compare against the code model. -/
def hybrid_search_claimC4 (store : Nat → List SearchResult) (query : Str)
    (topK : Nat) (w : ℚ) : List SearchResult :=
  let semanticResults := store (topK * 2)
  let queryTerms := queryTermSet query
  let rescored := semanticResults.map fun r =>
    { r with score := w * r.score + (1 - w) * keywordScoreTermSet queryTerms (lowerStr r.content) }
  (sortDesc rescored).take topK

/-! ## DocumentUseCase.index_document -/

/-- A chunk row as persisted by the chunk repository. -/
structure DocumentChunk where
  id : Nat
  document_id : Nat
  content : Str
  chunk_index : Nat
  start_char : Nat
  end_char : Nat
deriving DecidableEq, Repr

/-- A vector row as persisted by the vector store. -/
structure VectorEntry where
  id : Nat
  document_id : Nat
  embedding : List ℚ
  document : Str
deriving DecidableEq, Repr

/-- Document status lifecycle. -/
inductive DocStatus where
  | pending | processing | indexed | failed
deriving DecidableEq, Repr

/-- The document entity fields `index_document` touches. -/
structure Doc where
  id : Nat
  title : Str
  content : Str
  tags : List Str
  summary : Option Str
  status : DocStatus
deriving DecidableEq, Repr

/-- The two stores `index_document` mutates. -/
structure Stores where
  chunks : List DocumentChunk
  vectors : List VectorEntry
deriving DecidableEq, Repr

/-- `chunk_repo.delete_by_document` and `vector_store.delete_by_document`. -/
def deleteByDocument (docId : Nat) (st : Stores) : Stores :=
  { chunks := st.chunks.filter (fun c => c.document_id ≠ docId),
    vectors := st.vectors.filter (fun v => v.document_id ≠ docId) }

/-- `DocumentUseCase.index_document` for a document that exists (the
not-found path returns `False` untouched and is outside claim C1).
External effects are supplied as data: `summaryResult`/`tagsResult` model
the (exception-swallowing) optional LLM calls, `splitResult` the configured
splitter (which may raise), `embedResult` the embedding service call on the
chunk texts, and `newIds` the fresh UUIDs.  Raising is `Except.error`; the
final `except` clause marks the document failed and re-raises, so the
caller observes failure. -/
def index_document (doc : Doc)
    (summaryResult : Option Str) (tagsResult : Option (List Str))
    (splitResult : Except String (List TextChunk))
    (embedResult : List Str → Except String (List (List ℚ)))
    (newIds : List Nat) (st : Stores) :
    Except String Bool × Stores × Doc :=
  let doc := { doc with status := DocStatus.processing }
  let doc := match summaryResult with
    | some s => { doc with summary := some s }
    | none => doc
  let doc := match tagsResult with
    | some ts => { doc with tags := ts }
    | none => doc
  match splitResult with
  | Except.error e => (Except.error e, st, { doc with status := DocStatus.failed })
  | Except.ok textChunks =>
    if textChunks = [] then
      let st := deleteByDocument doc.id st
      (Except.ok true, st, { doc with status := DocStatus.indexed })
    else
      let newChunks := (newIds.zip textChunks).map fun (nid, tc) =>
        { id := nid, document_id := doc.id, content := tc.content,
          chunk_index := tc.chunk_index, start_char := tc.start_char,
          end_char := tc.end_char : DocumentChunk }
      let chunkTexts := newChunks.map (·.content)
      match embedResult chunkTexts with
      | Except.error e => (Except.error e, st, { doc with status := DocStatus.failed })
      | Except.ok embeddings =>
        let st := deleteByDocument doc.id st
        let st := { st with chunks := st.chunks ++ newChunks }
        let newVectors := (newChunks.zip embeddings).map fun (c, emb) =>
          { id := c.id, document_id := doc.id, embedding := emb,
            document := c.content : VectorEntry }
        let st := { st with vectors := st.vectors ++ newVectors }
        (Except.ok true, st, { doc with status := DocStatus.indexed })

/-! ## Spec-side definitions for refinement comparisons -/

/-- Renumber a chunk list with consecutive indices starting at `k`. -/
def renumFrom (k : Nat) : List TextChunk → List TextChunk
  | [] => []
  | c :: rest => { c with chunk_index := k } :: renumFrom (k + 1) rest

/-- Spec-side description (§4.3) of the chunks a single section contributes
to a semantic split, before global renumbering: a short section is kept
verbatim (stripped); otherwise the semantic backend's output is used when
it is available and succeeds, and the section is re-chunked with the
recursive splitter — locally, for that section only — when the backend is
unavailable or raises. -/
def semSectionChunksSpec (p : DocumentProcessor) (backend : SemBackend)
    (chunkSize? chunkOverlap? : Option Nat) (text : Str) (sec : MdSection) :
    List TextChunk :=
  if (pyStrip sec.content).length < p.min_chunk_size then
    if ¬strBlank sec.content then
      [{ content := pyStrip sec.content, start_char := sec.start_char,
         end_char := sec.start_char + sec.content.length,
         chunk_index := 0, section_title := some sec.title }]
    else []
  else
    match (match backend with
      | none => none
      | some ch => ch sec.content : Option (List Str)) with
    | some docs =>
      docs.map fun doc =>
        let f := pyFind (doc.take 50) text
        let s : Nat := if f = -1 then sec.start_char else f.toNat
        { content := doc, start_char := s, end_char := s + doc.length,
          chunk_index := 0, section_title := some sec.title }
    | none =>
      (p.chunk_text sec.content chunkSize? chunkOverlap?).map fun fc =>
        { fc with
          chunk_index := 0,
          start_char := fc.start_char + sec.start_char,
          end_char := fc.start_char + sec.start_char + fc.content.length,
          section_title := some sec.title }

/-! ## Support lemmas -/

/-- `pat` occurs as a contiguous substring of `text` at offset `i`. -/
def occursAt (pat text : Str) (i : Nat) : Prop :=
  ∃ pre suf, text = pre ++ pat ++ suf ∧ pre.length = i

/-- `pat` occurs somewhere in `text`. -/
def occursIn (pat text : Str) : Prop := ∃ i, occursAt pat text i

theorem isPrefixOf_append (l₁ l₂ : Str) (h : l₁.isPrefixOf l₂ = true) :
    l₂ = l₁ ++ l₂.drop l₁.length := by
  have h' : l₁ <+: l₂ := by simpa using h
  obtain ⟨t, ht⟩ := h'
  subst ht
  simp

theorem splitFirst_eq_some (sep : Str) : ∀ (text pre suf : Str),
    splitFirst sep text = some (pre, suf) → text = pre ++ sep ++ suf := by
  intro text
  induction text with
  | nil => intro pre suf h; simp [splitFirst] at h
  | cons c rest ih =>
    intro pre suf h
    unfold splitFirst at h
    by_cases hp : sep.isPrefixOf (c :: rest) = true
    · simp [hp] at h
      obtain ⟨hpre, hsuf⟩ := h
      subst hpre hsuf
      simpa using isPrefixOf_append sep (c :: rest) hp
    · simp [hp] at h
      cases hsf : splitFirst sep rest with
      | none => rw [hsf] at h; simp at h
      | some pr =>
        rw [hsf] at h
        simp at h
        obtain ⟨hpre, hsuf⟩ := h
        have := ih pr.1 pr.2 (by rw [hsf])
        subst hpre hsuf
        simp [this]

theorem splitFirst_suf_length (sep : Str) (hsep : sep ≠ []) (text pre suf : Str)
    (h : splitFirst sep text = some (pre, suf)) : suf.length < text.length := by
  have := splitFirst_eq_some sep text pre suf h
  subst this
  have : 1 ≤ sep.length := by
    cases sep with
    | nil => exact absurd rfl hsep
    | cons a as => simp
  simp [List.length_append]
  omega

/-- Characters of either side of a `splitFirst` split come from the text. -/
theorem splitFirst_chars (sep text pre suf : Str)
    (h : splitFirst sep text = some (pre, suf)) :
    (∀ c ∈ pre, c ∈ text) ∧ (∀ c ∈ suf, c ∈ text) := by
  have := splitFirst_eq_some sep text pre suf h
  subst this
  constructor <;> intro c hc <;> simp [hc]

/-- Every piece of `pySplit` is made of characters of the text. -/
theorem pySplit_chars (sep : Str) : ∀ (fuel : Nat) (text piece : Str),
    piece ∈ pySplit sep fuel text → ∀ c ∈ piece, c ∈ text := by
  intro fuel
  induction fuel with
  | zero =>
    intro text piece hp c hc
    simp [pySplit] at hp
    subst hp; exact hc
  | succ n ih =>
    intro text piece hp c hc
    unfold pySplit at hp
    cases hsf : splitFirst sep text with
    | none =>
      rw [hsf] at hp; simp at hp; subst hp; exact hc
    | some pr =>
      rw [hsf] at hp
      simp at hp
      rcases hp with hp | hp
      · subst hp
        exact (splitFirst_chars sep text pr.1 pr.2 (by rw [hsf])).1 c hc
      · have := ih pr.2 piece hp c hc
        exact (splitFirst_chars sep text pr.1 pr.2 (by rw [hsf])).2 c this

/-- Every piece of `charSlices` is made of characters of the text. -/
theorem charSlices_chars (cs : Nat) : ∀ (fuel : Nat) (text piece : Str),
    piece ∈ charSlices cs fuel text → ∀ c ∈ piece, c ∈ text := by
  intro fuel
  induction fuel with
  | zero =>
    intro text piece hp
    cases text <;> simp [charSlices] at hp
  | succ n ih =>
    intro text piece hp c hc
    cases text with
    | nil => simp [charSlices] at hp
    | cons a as =>
      unfold charSlices at hp
      simp at hp
      rcases hp with hp | hp
      · subst hp
        exact List.mem_of_mem_take hc
      · have := ih _ piece hp c hc
        exact List.mem_of_mem_drop this

/-! ## C6: short-text shortcut of the recursive splitter -/

/-- C6: for every non-empty text strictly shorter than the configured
`min_chunk_size`, `chunk_text` returns exactly one chunk whose content is
the whole text, spanning offsets `[0, len)` with index 0, for any
size/overlap overrides. -/
theorem chunk_text_short_single (p : DocumentProcessor) (text : Str)
    (cs co : Option Nat) (h1 : text ≠ []) (h2 : text.length < p.min_chunk_size) :
    p.chunk_text text cs co =
      [{ content := text, start_char := 0, end_char := text.length,
         chunk_index := 0 }] := by
  unfold DocumentProcessor.chunk_text
  simp [h1, h2]

/-- Witness for C6 at `text = "hi"` under the default configuration. -/
theorem chunk_text_short_single_witness :
    ("hi".toList ≠ [] ∧ "hi".toList.length < (⟨500, 50, 100⟩ : DocumentProcessor).min_chunk_size) ∧
    DocumentProcessor.chunk_text ⟨500, 50, 100⟩ "hi".toList none none =
      [{ content := "hi".toList, start_char := 0, end_char := 2,
         chunk_index := 0 }] :=
  ⟨⟨by decide, by decide⟩,
    chunk_text_short_single ⟨500, 50, 100⟩ "hi".toList none none
      (by decide) (by decide)⟩

/-! ## C1: failed chunking/embedding leaves both stores untouched -/

/-- C1: if the configured splitter raises, or it succeeds with a non-empty
chunk list and the embedding call raises, then `index_document` surfaces a
failure (not success) and the chunk store and the vector store are exactly
as before the call. -/
theorem index_document_failure_no_mutation (doc : Doc)
    (summaryResult : Option Str) (tagsResult : Option (List Str))
    (splitResult : Except String (List TextChunk))
    (embedResult : List Str → Except String (List (List ℚ)))
    (newIds : List Nat) (st : Stores)
    (hfail : (∃ e, splitResult = Except.error e) ∨
      (∃ tcs e, splitResult = Except.ok tcs ∧ tcs ≠ [] ∧
        embedResult ((newIds.zip tcs).map (fun x => x.2.content)) =
          Except.error e)) :
    (∃ e, (index_document doc summaryResult tagsResult splitResult embedResult
        newIds st).1 = Except.error e) ∧
    (index_document doc summaryResult tagsResult splitResult embedResult
        newIds st).2.1 = st := by
  rcases hfail with ⟨e, he⟩ | ⟨tcs, e, hok, hne, hemb⟩
  · subst he
    unfold index_document
    exact ⟨⟨e, rfl⟩, rfl⟩
  · subst hok
    unfold index_document
    dsimp only
    rw [if_neg hne]
    simp only [List.map_map, Function.comp_def]
    rw [hemb]
    exact ⟨⟨e, rfl⟩, rfl⟩

/-- Witness for C1: a concrete one-document store with an embedding
provider that raises. -/
theorem index_document_failure_no_mutation_witness :
    (∃ e, (index_document
        ⟨7, "t".toList, "body".toList, [], none, DocStatus.pending⟩ none none
        (Except.ok [{ content := "body".toList, start_char := 0, end_char := 4,
                      chunk_index := 0 }])
        (fun _ => Except.error "embed down") [11]
        ⟨[⟨1, 7, "old".toList, 0, 0, 3⟩], [⟨1, 7, [1], "old".toList⟩]⟩).1 =
      Except.error e) ∧
    (index_document
        ⟨7, "t".toList, "body".toList, [], none, DocStatus.pending⟩ none none
        (Except.ok [{ content := "body".toList, start_char := 0, end_char := 4,
                      chunk_index := 0 }])
        (fun _ => Except.error "embed down") [11]
        ⟨[⟨1, 7, "old".toList, 0, 0, 3⟩], [⟨1, 7, [1], "old".toList⟩]⟩).2.1 =
      ⟨[⟨1, 7, "old".toList, 0, 0, 3⟩], [⟨1, 7, [1], "old".toList⟩]⟩ :=
  index_document_failure_no_mutation _ _ _ _ _ _ _
    (Or.inr ⟨[{ content := "body".toList, start_char := 0, end_char := 4,
                chunk_index := 0 }], "embed down", rfl, by decide, rfl⟩)

/-! ## C10: long, all-whitespace text splits to nothing -/

theorem strBlank_of_subset (s t : Str) (h : ∀ c ∈ s, c ∈ t)
    (ht : strBlank t = true) : strBlank s = true := by
  simp only [strBlank, List.all_eq_true] at *
  exact fun c hc => ht c (h c hc)

theorem mergeSplits_all_blank (cs : Nat) (sep : Str) (canRec : Bool)
    (recurse : Str → List Str) : ∀ (splits : List Str) (chunks : List Str)
    (cur : Str), (∀ s ∈ splits, strBlank s = true) →
    mergeSplits cs sep canRec recurse splits chunks cur =
      if cur ≠ [] then chunks ++ [cur] else chunks := by
  intro splits
  induction splits with
  | nil => intro chunks cur _; rfl
  | cons s rest ih =>
    intro chunks cur hall
    unfold mergeSplits
    rw [if_pos (hall s (by simp))]
    exact ih chunks cur (fun x hx => hall x (by simp [hx]))

theorem recursiveSplitF_blank (cs fuel : Nat) (seps : List Str) (text : Str)
    (h : strBlank text = true) : recursiveSplitF cs fuel seps text = [] := by
  cases fuel with
  | zero => rfl
  | succ n =>
    unfold recursiveSplitF
    by_cases hlen : text.length ≤ cs
    · simp [hlen, h]
    · rw [if_neg hlen]
      show mergeSplits cs _ _ _ _ [] [] = []
      rw [mergeSplits_all_blank]
      · simp
      · intro s hs
        by_cases hsep : chooseSep seps text = []
        · rw [if_pos hsep] at hs
          exact strBlank_of_subset s text
            (charSlices_chars cs text.length text s hs) h
        · rw [if_neg hsep] at hs
          exact strBlank_of_subset s text
            (pySplit_chars _ text.length text s hs) h

/-- C10: a non-empty input consisting only of whitespace, of length at
least `min_chunk_size`, makes `chunk_text` return the empty list (blank
splits are discarded by `_recursive_split`), even though the input itself
is non-empty. -/
theorem chunk_text_blank_long_empty (p : DocumentProcessor) (text : Str)
    (cs co : Option Nat) (h1 : text ≠ []) (h2 : strBlank text = true)
    (h3 : p.min_chunk_size ≤ text.length) :
    p.chunk_text text cs co = [] := by
  unfold DocumentProcessor.chunk_text
  rw [if_neg h1, if_neg (by omega : ¬ text.length < p.min_chunk_size)]
  rw [recursiveSplit, recursiveSplitF_blank _ _ _ _ h2]
  rfl

/-! ## C3: chunk index contiguity -/

theorem buildChunks_indices (co : Nat) (text : Str) (chunks : List Str) :
    (buildChunks co text chunks).map TextChunk.chunk_index =
      List.range chunks.length := by
  simp [buildChunks, List.map_map, Function.comp_def]

theorem buildChunks_length (co : Nat) (text : Str) (chunks : List Str) :
    (buildChunks co text chunks).length = chunks.length := by
  simp [buildChunks]

/-- Indices of the base recursive `chunk_text` are `0, 1, 2, …`. -/
theorem chunk_text_indices (p : DocumentProcessor) (text : Str)
    (cs co : Option Nat) :
    (p.chunk_text text cs co).map TextChunk.chunk_index =
      List.range (p.chunk_text text cs co).length := by
  unfold DocumentProcessor.chunk_text
  by_cases h1 : text = []
  · simp [h1]
  · rw [if_neg h1]
    by_cases h2 : text.length < p.min_chunk_size
    · simp [h2, List.range_succ]
    · simp only [h2, if_false]
      rw [buildChunks_indices, buildChunks_length]

theorem foldl_preserves {α β : Type _} (P : β → Prop) (f : β → α → β)
    (h : ∀ b a, P b → P (f b a)) : ∀ (l : List α) (b : β), P b → P (l.foldl f b) := by
  intro l
  induction l with
  | nil => intro b hb; exact hb
  | cons a l ih => intro b hb; exact ih (f b a) (h b a hb)

/-- The per-section step of the semantic splitter preserves the running
invariant "accumulated indices are `0, …, idx-1`". -/
theorem semSectionStep_indices (p : DocumentProcessor) (backend : SemBackend)
    (cs co : Option Nat) (text : Str) (sec : MdSection)
    (st : List TextChunk × Nat)
    (h : st.1.map TextChunk.chunk_index = List.range st.1.length ∧
      st.2 = st.1.length) :
    (semSectionStep p backend cs co text st sec).1.map TextChunk.chunk_index =
        List.range (semSectionStep p backend cs co text st sec).1.length ∧
      (semSectionStep p backend cs co text st sec).2 =
        (semSectionStep p backend cs co text st sec).1.length := by
  obtain ⟨h1, h2⟩ := h
  obtain ⟨acc, idx⟩ := st
  simp only at h1 h2
  unfold semSectionStep
  dsimp only
  by_cases hshort : (pyStrip sec.content).length < p.min_chunk_size
  · rw [if_pos hshort]
    by_cases hb : ¬strBlank sec.content = true
    · rw [if_pos hb]
      refine ⟨?_, ?_⟩ <;> simp [h1, h2, List.range_succ]
    · rw [if_neg hb]
      exact ⟨h1, h2⟩
  · rw [if_neg hshort]
    rcases hdocs : (match backend with
      | none => none
      | some ch => ch sec.content : Option (List Str)) with _ | docs
    · dsimp only
      refine foldl_preserves
        (fun st => st.1.map TextChunk.chunk_index = List.range st.1.length ∧
          st.2 = st.1.length) _ ?_ _ (acc, idx) ⟨h1, h2⟩
      rintro ⟨acc', idx'⟩ fc ⟨hb1, hb2⟩
      simp only at hb1 hb2
      refine ⟨?_, ?_⟩ <;> simp [hb1, hb2, List.range_succ]
    · dsimp only
      refine foldl_preserves
        (fun st => st.1.map TextChunk.chunk_index = List.range st.1.length ∧
          st.2 = st.1.length) _ ?_ _ (acc, idx) ⟨h1, h2⟩
      rintro ⟨acc', idx'⟩ doc ⟨hb1, hb2⟩
      simp only at hb1 hb2
      refine ⟨?_, ?_⟩ <;> simp [hb1, hb2, List.range_succ]

/-- Indices of the semantic `chunk_text` are `0, 1, 2, …` for any backend
(including backends that fail on some or all sections). -/
theorem semantic_chunk_text_indices (p : DocumentProcessor)
    (backend : SemBackend) (text : Str) (cs co : Option Nat) :
    (SemanticDocumentProcessor.chunk_text p backend text cs co).map
        TextChunk.chunk_index =
      List.range (SemanticDocumentProcessor.chunk_text p backend text cs co).length := by
  unfold SemanticDocumentProcessor.chunk_text
  by_cases h1 : text = []
  · simp [h1]
  · rw [if_neg h1]
    by_cases h2 : text.length < p.min_chunk_size
    · simp [h2, List.range_succ]
    · rw [if_neg h2]
      exact (foldl_preserves
        (fun st => st.1.map TextChunk.chunk_index = List.range st.1.length ∧
          st.2 = st.1.length)
        (semSectionStep p backend cs co text)
        (fun b a hb => semSectionStep_indices p backend cs co text a b hb)
        (split_by_headers text) ([], 0) ⟨by simp, by simp⟩).1

theorem filter_flatMap {α β : Type _} (l : List α) (f : α → List β)
    (q : β → Bool) :
    (l.flatMap f).filter q = l.flatMap fun a => (f a).filter q := by
  induction l with
  | nil => rfl
  | cons a l ih => simp [List.filter_append, ih]

theorem flatMap_nil_of_forall {α β : Type _} (l : List α) (f : α → List β)
    (h : ∀ a ∈ l, f a = []) : l.flatMap f = [] := by
  induction l with
  | nil => rfl
  | cons a l ih =>
    simp only [List.flatMap_cons, h a (by simp)]
    exact ih (fun x hx => h x (by simp [hx]))

/-- With pairwise-distinct parent indices, restricting a parent-indexed
flatMap to one parent index selects at most that one parent's block. -/
theorem flatMap_ite_single (k : Nat) : ∀ (parents : List TextChunk)
    (inner : TextChunk → List TextChunk),
    (parents.map TextChunk.chunk_index).Nodup →
    (parents.flatMap fun par =>
        if par.chunk_index = k then inner par else []) = [] ∨
      ∃ par ∈ parents, par.chunk_index = k ∧
        (parents.flatMap fun par =>
          if par.chunk_index = k then inner par else []) = inner par := by
  intro parents
  induction parents with
  | nil => intro inner _; left; rfl
  | cons q rest ih =>
    intro inner hnd
    simp only [List.map_cons, List.nodup_cons] at hnd
    obtain ⟨hq, hrest⟩ := hnd
    by_cases hk : q.chunk_index = k
    · right
      refine ⟨q, by simp, hk, ?_⟩
      have hrestnil : (rest.flatMap fun par =>
          if par.chunk_index = k then inner par else []) = [] := by
        refine flatMap_nil_of_forall _ _ (fun par hpar => ?_)
        have : par.chunk_index ≠ k := by
          intro hc
          exact hq (by rw [← hk] at hc; exact hc ▸ List.mem_map_of_mem _ hpar)
        simp [this]
      simp [List.flatMap_cons, hk, hrestnil]
    · rcases ih inner hrest with hnil | ⟨par, hpar, hpk, heq⟩
      · left; simp [List.flatMap_cons, hk, hnil]
      · right
        exact ⟨par, by simp [hpar], hpk,
          by simp [List.flatMap_cons, hk, heq]⟩

/-- C3 (amended): chunk indices are `0, 1, 2, …` with no gaps or repeats
for the recursive splitter, the semantic splitter, and the hierarchical
parent list; the hierarchical child list is instead numbered per parent:
for every parent index `k`, the children carrying `parentIndex = k` have
indices exactly `0, 1, 2, …` (the numbering restarts at 0 inside each
parent rather than running across the whole child list). -/
theorem splitter_indices_contiguous (p : DocumentProcessor)
    (backend : SemBackend) (text htext : Str) (cs co : Option Nat)
    (parentSize childSize childOverlap k : Nat) :
    ((p.chunk_text text cs co).map TextChunk.chunk_index =
      List.range (p.chunk_text text cs co).length) ∧
    ((SemanticDocumentProcessor.chunk_text p backend text cs co).map
        TextChunk.chunk_index =
      List.range (SemanticDocumentProcessor.chunk_text p backend text cs co).length) ∧
    ((p.chunk_with_parents htext parentSize childSize childOverlap).1.map
        TextChunk.chunk_index =
      List.range (p.chunk_with_parents htext parentSize childSize childOverlap).1.length) ∧
    (((p.chunk_with_parents htext parentSize childSize childOverlap).2.filter
        (fun c => c.parent_index = some k)).map TextChunk.chunk_index =
      List.range ((p.chunk_with_parents htext parentSize childSize childOverlap).2.filter
        (fun c => c.parent_index = some k)).length) := by
  refine ⟨chunk_text_indices p text cs co,
    semantic_chunk_text_indices p backend text cs co,
    chunk_text_indices p htext (some parentSize) (some 0), ?_⟩
  unfold DocumentProcessor.chunk_with_parents
  dsimp only
  rw [filter_flatMap]
  have hsel : ∀ par : TextChunk,
      ((p.chunk_text par.content (some childSize) (some childOverlap)).map
        (fun child =>
          { child with
            start_char := child.start_char + par.start_char,
            end_char := child.start_char + par.start_char + child.content.length,
            parent_index := some par.chunk_index })).filter
        (fun c => c.parent_index = some k) =
      if par.chunk_index = k then
        (p.chunk_text par.content (some childSize) (some childOverlap)).map
          (fun child =>
            { child with
              start_char := child.start_char + par.start_char,
              end_char := child.start_char + par.start_char + child.content.length,
              parent_index := some par.chunk_index })
      else [] := by
    intro par
    by_cases hk : par.chunk_index = k <;>
      simp [List.filter_eq_self, List.filter_eq_nil_iff, hk]
  simp only [hsel]
  have hnd : ((p.chunk_text htext (some parentSize) (some 0)).map
      TextChunk.chunk_index).Nodup := by
    rw [chunk_text_indices]
    exact List.nodup_range _
  rcases flatMap_ite_single k (p.chunk_text htext (some parentSize) (some 0))
      _ hnd with hnil | ⟨par, _, _, heq⟩
  · rw [hnil]; rfl
  · rw [heq]
    simp only [List.map_map, List.length_map]
    have := chunk_text_indices p par.content (some childSize) (some childOverlap)
    calc ((p.chunk_text par.content (some childSize) (some childOverlap)).map
          (TextChunk.chunk_index ∘ fun child =>
            { child with
              start_char := child.start_char + par.start_char,
              end_char := child.start_char + par.start_char + child.content.length,
              parent_index := some par.chunk_index }))
        = (p.chunk_text par.content (some childSize) (some childOverlap)).map
            TextChunk.chunk_index := by rfl
      _ = List.range (p.chunk_text par.content (some childSize) (some childOverlap)).length := this

/-- C3 counterexample: with configuration `(chunk_size 500, overlap 3,
min 2)` on `"ab\n\ncd"`, the hierarchical child list has chunk indices
`[0, 0, 1]` (two parents, numbering restarting per parent), which is not
`0, 1, 2`. -/
theorem child_indices_not_contiguous :
    ¬ ((DocumentProcessor.chunk_with_parents ⟨500, 3, 2⟩ "ab\n\ncd".toList
        3 3 1).2.map TextChunk.chunk_index =
      List.range (DocumentProcessor.chunk_with_parents ⟨500, 3, 2⟩
        "ab\n\ncd".toList 3 3 1).2.length) := by decide

/-! ## C2: the parent-overlap bug of `chunk_with_parents` -/

/-- C2 (evaluation of the code at a failing input): `chunk_with_parents`
passes `chunk_overlap=0` for the parent pass, but `chunk_text` resolves it
with Python `or`, so the falsy `0` is replaced by the constructor overlap
(3 here).  On `"abcde\n\nfghij"` with parent size 8 the second parent chunk
is `"cdefghij"` — it starts with `"cde"`, the 3-character overlap copied
from the end of the first parent `"abcde"` — whereas building the same
chunks with an overlap that is really 0 yields `["abcde", "fghij"]`. -/
theorem chunk_with_parents_overlap_bug :
    ((DocumentProcessor.chunk_with_parents ⟨500, 3, 4⟩
        "abcde\n\nfghij".toList 8 4 1).1.map TextChunk.content =
      ["abcde".toList, "cdefghij".toList]) ∧
    ((buildChunks 0 "abcde\n\nfghij".toList
        (recursiveSplit 8 separators "abcde\n\nfghij".toList)).map
          TextChunk.content =
      ["abcde".toList, "fghij".toList]) := by decide

/-! ## C5: termination and non-blank chunk contents -/

theorem pySplit_nil (sep : Str) : ∀ fuel, pySplit sep fuel [] = [[]] := by
  intro fuel
  cases fuel with
  | zero => rfl
  | succ n => rfl

theorem pySplit_fuel_congr (sep : Str) (hsep : sep ≠ []) :
    ∀ (n : Nat) (text : Str), text.length ≤ n →
    ∀ f1 f2, text.length ≤ f1 → text.length ≤ f2 →
    pySplit sep f1 text = pySplit sep f2 text := by
  intro n
  induction n with
  | zero =>
    intro text ht f1 f2 _ _
    have : text = [] := List.length_eq_zero.mp (Nat.le_zero.mp ht)
    subst this
    rw [pySplit_nil, pySplit_nil]
  | succ n ih =>
    intro text ht f1 f2 h1 h2
    cases text with
    | nil => rw [pySplit_nil, pySplit_nil]
    | cons a as =>
      cases f1 with
      | zero => simp at h1
      | succ g1 =>
        cases f2 with
        | zero => simp at h2
        | succ g2 =>
          show pySplit sep (g1 + 1) (a :: as) = pySplit sep (g2 + 1) (a :: as)
          unfold pySplit
          cases hsf : splitFirst sep (a :: as) with
          | none => rfl
          | some pr =>
            have hlt := splitFirst_suf_length sep hsep (a :: as) pr.1 pr.2
              (by rw [hsf])
            simp only
            congr 1
            have hn : pr.2.length ≤ n := by
              simp at ht hlt ⊢; omega
            exact ih pr.2 hn g1 g2 (by simp at h1 hlt ⊢; omega)
              (by simp at h2 hlt ⊢; omega)

theorem charSlices_fuel_congr (cs : Nat) (hcs : 0 < cs) :
    ∀ (n : Nat) (text : Str), text.length ≤ n →
    ∀ f1 f2, text.length ≤ f1 → text.length ≤ f2 →
    charSlices cs f1 text = charSlices cs f2 text := by
  intro n
  induction n with
  | zero =>
    intro text ht f1 f2 _ _
    have : text = [] := List.length_eq_zero.mp (Nat.le_zero.mp ht)
    subst this
    cases f1 <;> cases f2 <;> rfl
  | succ n ih =>
    intro text ht f1 f2 h1 h2
    cases text with
    | nil => cases f1 <;> cases f2 <;> rfl
    | cons a as =>
      cases f1 with
      | zero => simp at h1
      | succ g1 =>
        cases f2 with
        | zero => simp at h2
        | succ g2 =>
          show List.take cs (a :: as) :: charSlices cs g1 (List.drop cs (a :: as)) =
            List.take cs (a :: as) :: charSlices cs g2 (List.drop cs (a :: as))
          congr 1
          have hd : (List.drop cs (a :: as)).length ≤ n := by
            simp at ht ⊢; omega
          exact ih _ hd g1 g2 (by simp at h1 ⊢; omega) (by simp at h2 ⊢; omega)

/-- `mergeSplits` never calls `recurse` when `canRec = false`. -/
theorem mergeSplits_recurse_irrel (cs : Nat) (sep : Str)
    (r1 r2 : Str → List Str) : ∀ (splits chunks : List Str) (cur : Str),
    mergeSplits cs sep false r1 splits chunks cur =
      mergeSplits cs sep false r2 splits chunks cur := by
  intro splits
  induction splits with
  | nil => intro chunks cur; rfl
  | cons s rest ih =>
    intro chunks cur
    unfold mergeSplits
    by_cases hb : strBlank s = true
    · rw [if_pos hb, if_pos hb]; exact ih chunks cur
    · rw [if_neg hb, if_neg hb]
      dsimp only
      by_cases hfit : (if cur ≠ [] then cur ++ sep ++ s else s).length ≤ cs
      · rw [if_pos hfit, if_pos hfit]; exact ih _ _
      · rw [if_neg hfit, if_neg hfit]
        have hcr : ¬(cs < s.length ∧ false = true) := by simp
        rw [if_neg hcr, if_neg hcr]
        exact ih _ _

/-- Fuel-indifference of `_recursive_split`: any fuel at least the length
of the (nonempty) separator list computes the same result — the embedded
recursion terminates at exactly the depth of the separator-list descent. -/
theorem recursiveSplitF_fuel_congr (cs : Nat) :
    ∀ (seps : List Str), seps ≠ [] →
    ∀ f1 f2, seps.length ≤ f1 → seps.length ≤ f2 →
    ∀ text, recursiveSplitF cs f1 seps text = recursiveSplitF cs f2 seps text := by
  intro seps
  induction seps with
  | nil => intro h; exact absurd rfl h
  | cons s ss ih =>
    intro _ f1 f2 h1 h2 text
    cases f1 with
    | zero => simp at h1
    | succ g1 =>
      cases f2 with
      | zero => simp at h2
      | succ g2 =>
        show recursiveSplitF cs (g1 + 1) (s :: ss) text =
          recursiveSplitF cs (g2 + 1) (s :: ss) text
        unfold recursiveSplitF
        by_cases hlen : text.length ≤ cs
        · rw [if_pos hlen, if_pos hlen]
        · rw [if_neg hlen, if_neg hlen]
          by_cases hss : ss = []
          · subst hss
            dsimp only
            exact mergeSplits_recurse_irrel cs _ _ _ _ [] []
          · have hfun : (fun u => recursiveSplitF cs g1 (s :: ss).tail u) =
                (fun u => recursiveSplitF cs g2 (s :: ss).tail u) := by
              funext u
              dsimp only [List.tail_cons]
              exact ih hss g1 g2
                (by simp at h1 ⊢; omega)
                (by simp at h2 ⊢; omega) u
            dsimp only
            rw [hfun]

theorem strBlank_append_right (a b : Str) (h : strBlank b = false) :
    strBlank (a ++ b) = false := by
  simp only [strBlank, List.all_append, Bool.and_eq_false_iff] at *
  exact Or.inr h

/-- All chunks flushed by the merge loop are non-blank, provided the
accumulator satisfies the loop invariant and the recursive call only
produces non-blank chunks. -/
theorem mergeSplits_nonblank (cs : Nat) (sep : Str) (canRec : Bool)
    (recurse : Str → List Str)
    (hrec : ∀ t c, c ∈ recurse t → strBlank c = false) :
    ∀ (splits chunks : List Str) (cur : Str),
    (cur = [] ∨ strBlank cur = false) →
    (∀ c ∈ chunks, strBlank c = false) →
    ∀ c ∈ mergeSplits cs sep canRec recurse splits chunks cur,
      strBlank c = false := by
  intro splits
  induction splits with
  | nil =>
    intro chunks cur hcur hchunks c hc
    unfold mergeSplits at hc
    by_cases hne : cur ≠ []
    · rw [if_pos hne] at hc
      rcases List.mem_append.mp hc with h | h
      · exact hchunks c h
      · have : c = cur := by simpa using h
        subst this
        rcases hcur with h' | h'
        · exact absurd h' hne
        · exact h'
    · rw [if_neg hne] at hc
      exact hchunks c hc
  | cons s rest ih =>
    intro chunks cur hcur hchunks c hc
    unfold mergeSplits at hc
    by_cases hb : strBlank s = true
    · rw [if_pos hb] at hc
      exact ih chunks cur hcur hchunks c hc
    · rw [if_neg hb] at hc
      dsimp only at hc
      have hsnb : strBlank s = false := by
        cases h : strBlank s
        · rfl
        · exact absurd h hb
      by_cases hfit : (if cur ≠ [] then cur ++ sep ++ s else s).length ≤ cs
      · rw [if_pos hfit] at hc
        refine ih chunks _ (Or.inr ?_) hchunks c hc
        by_cases hne : cur ≠ []
        · rw [if_pos hne]
          exact strBlank_append_right _ _ hsnb
        · rw [if_neg hne]
          exact hsnb
      · rw [if_neg hfit] at hc
        have hchunks1 : ∀ x ∈ (if cur ≠ [] then chunks ++ [cur] else chunks),
            strBlank x = false := by
          intro x hx
          by_cases hne : cur ≠ []
          · rw [if_pos hne] at hx
            rcases List.mem_append.mp hx with h | h
            · exact hchunks x h
            · have : x = cur := by simpa using h
              subst this
              rcases hcur with h' | h'
              · exact absurd h' hne
              · exact h'
          · rw [if_neg hne] at hx
            exact hchunks x hx
        by_cases hcr : cs < s.length ∧ canRec = true
        · rw [if_pos hcr] at hc
          refine ih _ _ ?_ ?_ c hc
          · cases hsub : (recurse s).getLast? with
            | none => left; simp [hsub]
            | some last =>
              right
              simp only [hsub, Option.getD_some]
              exact hrec s last (List.mem_of_mem_getLast? hsub)
          · intro x hx
            rcases List.mem_append.mp hx with h | h
            · exact hchunks1 x h
            · exact hrec s x (List.dropLast_subset _ h)
        · rw [if_neg hcr] at hc
          exact ih _ _ (Or.inr hsnb) hchunks1 c hc

/-- Every chunk produced by `_recursive_split` is non-blank. -/
theorem recursiveSplitF_nonblank (cs : Nat) : ∀ (fuel : Nat)
    (seps : List Str) (text : Str),
    ∀ c ∈ recursiveSplitF cs fuel seps text, strBlank c = false := by
  intro fuel
  induction fuel with
  | zero => intro seps text c hc; simp [recursiveSplitF] at hc
  | succ n ih =>
    intro seps text c hc
    unfold recursiveSplitF at hc
    by_cases hlen : text.length ≤ cs
    · rw [if_pos hlen] at hc
      by_cases hb : strBlank text = true
      · rw [if_pos hb] at hc; simp at hc
      · rw [if_neg hb] at hc
        have : c = text := by simpa using hc
        subst this
        cases h : strBlank c
        · rfl
        · exact absurd h hb
    · rw [if_neg hlen] at hc
      exact mergeSplits_nonblank cs _ _ _ (fun t x hx => ih seps.tail t x hx)
        _ [] [] (Or.inl rfl) (by intro x hx; simp at hx) c hc

/-- C5 (amended): the recursive splitter terminates — the embedded fuels
are indifferent above their canonical values (separator-list depth for the
recursion, text length for the splitting loops) — and on any input
containing at least one non-whitespace character every returned chunk's
content is non-blank after trimming.  (The original claim fails for
non-empty all-whitespace input shorter than `min_chunk_size`, where the
single returned chunk is the blank input itself.) -/
theorem recursive_split_terminates_and_nonblank (p : DocumentProcessor)
    (text : Str) (sep : Str) (cs fuel : Nat) (seps : List Str)
    (cso coo : Option Nat)
    (hseps : seps ≠ []) (hfuel : seps.length ≤ fuel) (hsep : sep ≠ [])
    (htf : text.length ≤ fuel) (hcs : 0 < cs)
    (hnb : strBlank text = false) :
    recursiveSplitF cs fuel seps text = recursiveSplit cs seps text ∧
    pySplit sep fuel text = pySplit sep text.length text ∧
    charSlices cs fuel text = charSlices cs text.length text ∧
    ∀ c ∈ p.chunk_text text cso coo, strBlank c.content = false := by
  refine ⟨recursiveSplitF_fuel_congr cs seps hseps fuel seps.length hfuel
      (le_refl _) text,
    pySplit_fuel_congr sep hsep text.length text (le_refl _) fuel text.length
      htf (le_refl _),
    charSlices_fuel_congr cs hcs text.length text (le_refl _) fuel text.length
      htf (le_refl _), ?_⟩
  intro c hc
  have htne : text ≠ [] := by
    intro h
    subst h
    simp [strBlank] at hnb
  unfold DocumentProcessor.chunk_text at hc
  rw [if_neg htne] at hc
  by_cases hshort : text.length < p.min_chunk_size
  · rw [if_pos hshort] at hc
    have : c = {
        content := text, start_char := 0, end_char := text.length,
        chunk_index := 0 } := by simpa using hc
    subst this
    exact hnb
  · rw [if_neg hshort] at hc
    simp only [buildChunks, List.mem_map, List.mem_range] at hc
    obtain ⟨i, hi, hceq⟩ := hc
    subst hceq
    dsimp only
    have hmem : (recursiveSplit (pyOrNat cso p.chunk_size) separators text).getD i [] ∈
        recursiveSplit (pyOrNat cso p.chunk_size) separators text := by
      rw [List.getD_eq_getElem _ [] hi]
      exact List.getElem_mem hi
    have hnb0 : strBlank ((recursiveSplit (pyOrNat cso p.chunk_size) separators
        text).getD i []) = false :=
      recursiveSplitF_nonblank _ _ _ _ _ hmem
    by_cases hov : 0 < i ∧ 0 < pyOrNat coo p.chunk_overlap
    · rw [if_pos hov]
      exact strBlank_append_right _ _ hnb0
    · rw [if_neg hov]
      exact hnb0

/-- Witness for C5 at `text = "a b"`, `sep = " "`, default configuration. -/
theorem recursive_split_terminates_and_nonblank_witness :
    (separators ≠ [] ∧ separators.length ≤ 12 ∧ [' '] ≠ ([] : Str) ∧
      "a b".toList.length ≤ 12 ∧ 0 < 2 ∧ strBlank "a b".toList = false) ∧
    (recursiveSplitF 2 12 separators "a b".toList =
        recursiveSplit 2 separators "a b".toList ∧
      pySplit [' '] 12 "a b".toList = pySplit [' '] "a b".toList.length "a b".toList ∧
      charSlices 2 12 "a b".toList = charSlices 2 "a b".toList.length "a b".toList ∧
      ∀ c ∈ DocumentProcessor.chunk_text ⟨500, 50, 100⟩ "a b".toList none none,
        strBlank c.content = false) :=
  ⟨⟨by decide, by decide, by decide, by decide, by decide, by decide⟩,
    recursive_split_terminates_and_nonblank ⟨500, 50, 100⟩ "a b".toList [' ']
      2 12 separators none none (by decide) (by decide) (by decide)
      (by decide) (by decide) (by decide)⟩

/-- C5 counterexample: a single blank character is non-empty but shorter
than the default `min_chunk_size`, so `chunk_text` returns it verbatim as
one chunk whose content is blank after trimming — refuting "every returned
chunk's content is non-empty after trimming" as universally stated. -/
theorem chunk_text_blank_chunk :
    ∃ c ∈ DocumentProcessor.chunk_text ⟨500, 50, 100⟩ [' '] none none,
      strBlank c.content = true := by decide

/-! ## C4: hybrid keyword scoring -/

theorem isPrefixOf_right_append (l t : Str) : l.isPrefixOf (l ++ t) = true := by
  induction l with
  | nil => simp [List.isPrefixOf]
  | cons a as ih => simp [List.isPrefixOf, ih]

theorem splitFirst_isSome_of_occurs (sep : Str) (hsep : sep ≠ []) :
    ∀ (text : Str) (i : Nat), occursAt sep text i →
    (splitFirst sep text).isSome = true := by
  intro text
  induction text with
  | nil =>
    intro i ⟨pre, suf, heq, _⟩
    have h' : pre ++ sep ++ suf = [] := heq.symm
    simp only [List.append_eq_nil] at h'
    exact absurd h'.1.2 hsep
  | cons c rest ih =>
    intro i ⟨pre, suf, heq, hlen⟩
    unfold splitFirst
    by_cases hp : sep.isPrefixOf (c :: rest) = true
    · rw [if_pos hp]; rfl
    · rw [if_neg hp]
      cases pre with
      | nil =>
        exfalso
        apply hp
        simp at heq
        rw [heq]
        exact isPrefixOf_right_append sep suf
      | cons c' pre' =>
        simp at heq
        obtain ⟨hc, hrest⟩ := heq
        have : (splitFirst sep rest).isSome = true :=
          ih pre'.length ⟨pre', suf, by simp [← hrest], rfl⟩
        cases hsf : splitFirst sep rest with
        | none => rw [hsf] at this; simp at this
        | some pr => rfl

theorem splitFirst_minimal (sep : Str) : ∀ (text pre suf : Str),
    splitFirst sep text = some (pre, suf) →
    ∀ i, occursAt sep text i → pre.length ≤ i := by
  intro text
  induction text with
  | nil => intro pre suf h; simp [splitFirst] at h
  | cons c rest ih =>
    intro pre suf h i hocc
    unfold splitFirst at h
    by_cases hp : sep.isPrefixOf (c :: rest) = true
    · rw [if_pos hp] at h
      simp at h
      obtain ⟨hpre, _⟩ := h
      subst hpre
      simp
    · rw [if_neg hp] at h
      cases hsf : splitFirst sep rest with
      | none => rw [hsf] at h; simp at h
      | some pr =>
        rw [hsf] at h
        simp at h
        obtain ⟨hpre, hsuf⟩ := h
        obtain ⟨pre0, suf0, heq, hlen⟩ := hocc
        cases pre0 with
        | nil =>
          exfalso
          apply hp
          simp at heq
          rw [heq]
          exact isPrefixOf_right_append sep suf0
        | cons c0 pre0' =>
          simp at heq
          obtain ⟨_, hrest⟩ := heq
          have := ih pr.1 pr.2 (by rw [hsf]) pre0'.length
            ⟨pre0', suf0, by simp [← hrest], rfl⟩
          subst hpre
          subst hlen
          simp
          omega

/-- The code's substring test (`term in content`) is exactly substring
occurrence. -/
theorem containsSub_iff_occursIn (sep text : Str) :
    containsSub sep text = true ↔ occursIn sep text := by
  constructor
  · intro h
    unfold containsSub at h
    rcases Bool.or_eq_true_iff.mp h with h | h
    · have : sep = [] := by simpa using h
      subst this
      exact ⟨0, [], text, by simp, rfl⟩
    · cases hsf : splitFirst sep text with
      | none => rw [hsf] at h; simp at h
      | some pr =>
        exact ⟨pr.1.length, pr.1, pr.2,
          splitFirst_eq_some sep text pr.1 pr.2 (by rw [hsf]), rfl⟩
  · intro ⟨i, hocc⟩
    unfold containsSub
    by_cases hsep : sep = []
    · subst hsep; simp
    · rw [Bool.or_eq_true_iff]
      exact Or.inr (splitFirst_isSome_of_occurs sep hsep text i hocc)

theorem mem_insertDesc (x a : SearchResult) : ∀ l : List SearchResult,
    a ∈ insertDesc x l ↔ a = x ∨ a ∈ l := by
  intro l
  induction l with
  | nil => simp [insertDesc]
  | cons y ys ih =>
    unfold insertDesc
    by_cases hxy : x.score < y.score
    · rw [if_pos hxy]
      simp only [List.mem_cons, ih]
      tauto
    · rw [if_neg hxy]
      simp only [List.mem_cons]

theorem mem_sortDesc (a : SearchResult) : ∀ l : List SearchResult,
    a ∈ sortDesc l ↔ a ∈ l := by
  intro l
  induction l with
  | nil => simp [sortDesc]
  | cons x xs ih =>
    show a ∈ insertDesc x (sortDesc xs) ↔ _
    rw [mem_insertDesc, ih]
    simp

theorem pairwise_insertDesc (x : SearchResult) : ∀ l : List SearchResult,
    l.Pairwise (fun a b => b.score ≤ a.score) →
    (insertDesc x l).Pairwise (fun a b => b.score ≤ a.score) := by
  intro l
  induction l with
  | nil => intro _; simp [insertDesc]
  | cons y ys ih =>
    intro h
    rw [List.pairwise_cons] at h
    obtain ⟨hy, hys⟩ := h
    unfold insertDesc
    by_cases hxy : x.score < y.score
    · rw [if_pos hxy]
      rw [List.pairwise_cons]
      refine ⟨?_, ih hys⟩
      intro a ha
      rcases (mem_insertDesc x a ys).mp ha with h | h
      · subst h; exact le_of_lt hxy
      · exact hy a h
    · rw [if_neg hxy]
      rw [List.pairwise_cons]
      refine ⟨?_, by rw [List.pairwise_cons]; exact ⟨hy, hys⟩⟩
      intro a ha
      rcases List.mem_cons.mp ha with h | h
      · subst h; exact not_lt.mp hxy
      · exact le_trans (hy a h) (not_lt.mp hxy)

theorem pairwise_sortDesc : ∀ l : List SearchResult,
    (sortDesc l).Pairwise (fun a b => b.score ≤ a.score) := by
  intro l
  induction l with
  | nil => simp [sortDesc]
  | cons x xs ih => exact pairwise_insertDesc x (sortDesc xs) ih

/-- C4 (amended): `hybrid_search` requests `2*topK` semantic candidates and
re-scores each with `finalScore = w·semanticScore + (1-w)·keywordScore`,
where `keywordScore` is the fraction of *distinct lowercase query terms
that occur as substrings of the lowercased content* (not membership in the
content's own term set); the output is the stable descending re-sort of
the re-scored candidates truncated to `topK`, and the `"hello"` /
`"hello world"` scenario scores `0.7·0.5 + 0.3·1.0 = 0.65`. -/
theorem hybrid_search_amended :
    (∀ sep text : Str, containsSub sep text = true ↔ occursIn sep text) ∧
    (∀ (store : Nat → List SearchResult) (query : Str) (topK : Nat) (w : ℚ)
      (r : SearchResult), r ∈ hybrid_search store query topK w →
      ∃ r0 ∈ store (topK * 2), r = { r0 with
        score := w * r0.score +
          (1 - w) * keywordScore (queryTermSet query) (lowerStr r0.content) }) ∧
    (∀ (store : Nat → List SearchResult) (query : Str) (topK : Nat) (w : ℚ),
      (hybrid_search store query topK w).Pairwise (fun a b => b.score ≤ a.score) ∧
      (hybrid_search store query topK w).length ≤ topK) ∧
    (hybrid_search (fun _ => [⟨0, "hello world".toList, 1/2⟩])
      "hello".toList 1 (7/10) = [⟨0, "hello world".toList, 13/20⟩]) := by
  refine ⟨containsSub_iff_occursIn, ?_, ?_, ?_⟩
  · intro store query topK w r hr
    unfold hybrid_search at hr
    dsimp only at hr
    have hr1 := List.mem_of_mem_take hr
    rw [mem_sortDesc] at hr1
    obtain ⟨r0, hr0, heq⟩ := List.mem_map.mp hr1
    exact ⟨r0, hr0, heq.symm⟩
  · intro store query topK w
    constructor
    · exact (pairwise_sortDesc _).sublist (List.take_sublist _ _)
    · simp [hybrid_search]
  · have hkw : keywordScore (queryTermSet "hello".toList)
        (lowerStr "hello world".toList) = 1 := by
      have hfil : (queryTermSet "hello".toList).filter
          (fun t => containsSub t (lowerStr "hello world".toList)) =
          ["hello".toList] := by decide
      have hlen : (queryTermSet "hello".toList).length = 1 := by decide
      unfold keywordScore
      rw [if_neg (by decide), hfil, hlen]
      norm_num
    have harith : (7 : ℚ)/10 * (1/2) + (1 - 7/10) * 1 = 13/20 := by norm_num
    show (sortDesc [({
        id := 0, content := "hello world".toList,
        score := 7/10 * (1/2) + (1 - 7/10) *
          keywordScore (queryTermSet "hello".toList)
            (lowerStr "hello world".toList) } : SearchResult)]).take 1 = _
    rw [hkw, harith]
    rfl

/-- Witness for C4 (instantiating the membership hypothesis of the second
conjunct with the scenario candidate). -/
theorem hybrid_search_amended_witness :
    ((⟨0, "hello world".toList, 13/20⟩ : SearchResult) ∈
      hybrid_search (fun _ => [⟨0, "hello world".toList, 1/2⟩])
        "hello".toList 1 (7/10)) ∧
    ∃ r0 ∈ (fun _ : Nat => [(⟨0, "hello world".toList, 1/2⟩ : SearchResult)]) (1 * 2),
      (⟨0, "hello world".toList, 13/20⟩ : SearchResult) = { r0 with
        score := 7/10 * r0.score + (1 - 7/10) *
          keywordScore (queryTermSet "hello".toList) (lowerStr r0.content) } := by
  have hmem : (⟨0, "hello world".toList, 13/20⟩ : SearchResult) ∈
      hybrid_search (fun _ => [⟨0, "hello world".toList, 1/2⟩])
        "hello".toList 1 (7/10) := by
    rw [hybrid_search_amended.2.2.2]
    simp
  exact ⟨hmem, hybrid_search_amended.2.1 _ _ _ _ _ hmem⟩

/-- C4 counterexample: the claim computes the keyword score through term-set
intersection, the code through substring containment.  For query `"hell"`
against content `"hello world"` (semantic weight 0, semantic score 1/2) the
code scores the candidate 1 (`"hell"` is a substring) while the claim's
formula scores it 0 (`"hell"` is not one of the content's terms), so the
two searches return different results. -/
theorem hybrid_search_claimC4_counterexample :
    hybrid_search (fun _ => [⟨0, "hello world".toList, 1/2⟩])
        "hell".toList 1 0 ≠
      hybrid_search_claimC4 (fun _ => [⟨0, "hello world".toList, 1/2⟩])
        "hell".toList 1 0 := by
  unfold hybrid_search hybrid_search_claimC4
  dsimp only
  have h1 : keywordScore (queryTermSet "hell".toList)
      (lowerStr "hello world".toList) = 1 := by
    have hfil : (queryTermSet "hell".toList).filter
        (fun t => containsSub t (lowerStr "hello world".toList)) =
        ["hell".toList] := by decide
    have hlen : (queryTermSet "hell".toList).length = 1 := by decide
    unfold keywordScore
    rw [if_neg (by decide), hfil, hlen]
    norm_num
  have h2 : keywordScoreTermSet (queryTermSet "hell".toList)
      (lowerStr "hello world".toList) = 0 := by
    have hfil : (queryTermSet "hell".toList).filter
        (fun t => t ∈ (pyWords (lowerStr "hello world".toList)).dedup) =
        [] := by decide
    unfold keywordScoreTermSet
    rw [if_neg (by decide), hfil]
    norm_num
  simp only [List.map]
  rw [h1, h2]
  intro hcontra
  simp only [sortDesc, insertDesc, List.take] at hcontra
  simp only [List.cons.injEq, SearchResult.mk.injEq, and_true, true_and] at hcontra
  norm_num at hcontra

/-! ## C7: child spans inside parent spans -/

/-- Every chunk produced by `chunk_text` satisfies
`end_char = start_char + len(content)`. -/
theorem chunk_text_end_eq (p : DocumentProcessor) (text : Str)
    (cs co : Option Nat) (c : TextChunk) (hc : c ∈ p.chunk_text text cs co) :
    c.end_char = c.start_char + c.content.length := by
  unfold DocumentProcessor.chunk_text at hc
  by_cases h1 : text = []
  · simp [h1] at hc
  · rw [if_neg h1] at hc
    by_cases h2 : text.length < p.min_chunk_size
    · rw [if_pos h2] at hc
      have : c = {
          content := text, start_char := 0, end_char := text.length,
          chunk_index := 0 } := by simpa using hc
      subst this
      simp
    · rw [if_neg h2] at hc
      simp only [buildChunks, List.mem_map, List.mem_range] at hc
      obtain ⟨i, _, hceq⟩ := hc
      subst hceq
      rfl

/-- If the recovered (first-50-characters) position search starts from a
string that actually occurs in the text, the recovered start plus the
string's length stays inside the text: the first occurrence of the prefix
is no later than the occurrence of the whole string. -/
theorem start_len_le_of_occurs (ch text : Str) (hocc : occursIn ch text) :
    (if pyFind (ch.take 50) text = -1 then (0 : Nat)
      else (pyFind (ch.take 50) text).toNat) + ch.length ≤ text.length := by
  obtain ⟨q0, pre, suf, heq, hlen⟩ := hocc
  have hq0 : q0 + ch.length + suf.length = text.length := by
    subst heq hlen
    simp [List.length_append]
    omega
  by_cases hpat : ch.take 50 = []
  · have hch : ch = [] := by
      rcases List.take_eq_nil_iff.mp hpat with h | h
      · omega
      · exact h
    subst hch
    simp [pyFind]
  · have hoccpat : occursAt (ch.take 50) text q0 := by
      refine ⟨pre, ch.drop 50 ++ suf, ?_, hlen⟩
      rw [heq]
      simp only [List.append_assoc]
      rw [← List.append_assoc (ch.take 50), List.take_append_drop]
    have hsome := splitFirst_isSome_of_occurs (ch.take 50) hpat text q0 hoccpat
    cases hsf : splitFirst (ch.take 50) text with
    | none => rw [hsf] at hsome; simp at hsome
    | some pr =>
      have hmin := splitFirst_minimal (ch.take 50) text pr.1 pr.2
        (by rw [hsf]) q0 hoccpat
      have hne : ¬ ((ch.take 50).isEmpty = true) := by
        simpa [List.isEmpty_iff] using hpat
      have hfind : pyFind (ch.take 50) text = (pr.1.length : Int) := by
        unfold pyFind
        rw [if_neg hne, hsf]
      rw [hfind]
      rw [if_neg (by omega : ¬ ((pr.1.length : Int) = -1))]
      simp only [Int.toNat_natCast]
      omega

/-- A chunk whose (overlap-extended) content occurs somewhere in the text
has its recovered span inside the text. -/
theorem chunk_text_occurs_span (p : DocumentProcessor) (text : Str)
    (cs co : Option Nat) (c : TextChunk) (hc : c ∈ p.chunk_text text cs co)
    (hocc : occursIn c.content text) :
    c.start_char + c.content.length ≤ text.length := by
  unfold DocumentProcessor.chunk_text at hc
  by_cases h1 : text = []
  · simp [h1] at hc
  · rw [if_neg h1] at hc
    by_cases h2 : text.length < p.min_chunk_size
    · rw [if_pos h2] at hc
      have : c = {
          content := text, start_char := 0, end_char := text.length,
          chunk_index := 0 } := by simpa using hc
      subst this
      simp
    · rw [if_neg h2] at hc
      simp only [buildChunks, List.mem_map, List.mem_range] at hc
      obtain ⟨i, _, hceq⟩ := hc
      subst hceq
      dsimp only at hocc ⊢
      exact start_len_le_of_occurs _ text hocc

/-- C7 (amended): for every parent/child pair linked by `parentIndex`, the
child's start offset is at least the parent's; and whenever the child's
content actually occurs inside the parent's content (position recovery can
succeed), the child's half-open span is contained in the parent's.  (The
unconditional claim fails: when an overlap-extended child's content does
not occur in the parent, the 50-character position heuristic can land on a
late repeated prefix and push `endOffset` past the parent's span.) -/
theorem chunk_with_parents_child_span (p : DocumentProcessor) (text : Str)
    (parentSize childSize childOverlap : Nat) (parent child : TextChunk)
    (hp : parent ∈ (p.chunk_with_parents text parentSize childSize childOverlap).1)
    (hc : child ∈ (p.chunk_with_parents text parentSize childSize childOverlap).2)
    (hlink : child.parent_index = some parent.chunk_index) :
    parent.start_char ≤ child.start_char ∧
    (occursIn child.content parent.content →
      child.end_char ≤ parent.end_char) := by
  unfold DocumentProcessor.chunk_with_parents at hp hc
  dsimp only at hp hc
  rw [List.mem_flatMap] at hc
  obtain ⟨q, hq, hchild⟩ := hc
  obtain ⟨c0, hc0, hc0eq⟩ := List.mem_map.mp hchild
  subst hc0eq
  dsimp only at hlink ⊢
  have hqp : q = parent := by
    have hnd : ((p.chunk_text text (some parentSize) (some 0)).map
        TextChunk.chunk_index).Nodup := by
      rw [chunk_text_indices]
      exact List.nodup_range _
    have hidx : q.chunk_index = parent.chunk_index := by
      simpa using hlink
    exact List.inj_on_of_nodup_map hnd hq hp hidx
  subst hqp
  refine ⟨by omega, ?_⟩
  intro hocc
  have hspan := chunk_text_occurs_span p q.content (some childSize)
    (some childOverlap) c0 hc0 hocc
  have hpend := chunk_text_end_eq p text (some parentSize) (some 0) q hp
  omega

/-- Witness for C7 on `"ab"` with unit-size children: the overlap-extended
child `"ab"` occurs in its parent `"ab"`, and its span is contained. -/
theorem chunk_with_parents_child_span_witness :
    ((⟨"ab".toList, 0, 2, 0, none, none⟩ : TextChunk) ∈
      (DocumentProcessor.chunk_with_parents ⟨500, 50, 1⟩ "ab".toList 10 1 1).1 ∧
     (⟨"ab".toList, 0, 2, 1, some 0, none⟩ : TextChunk) ∈
      (DocumentProcessor.chunk_with_parents ⟨500, 50, 1⟩ "ab".toList 10 1 1).2 ∧
     (some 0 : Option Nat) = some 0) ∧
    ((⟨"ab".toList, 0, 2, 0, none, none⟩ : TextChunk).start_char ≤
      (⟨"ab".toList, 0, 2, 1, some 0, none⟩ : TextChunk).start_char ∧
    (occursIn (⟨"ab".toList, 0, 2, 1, some 0, none⟩ : TextChunk).content
        (⟨"ab".toList, 0, 2, 0, none, none⟩ : TextChunk).content →
      (⟨"ab".toList, 0, 2, 1, some 0, none⟩ : TextChunk).end_char ≤
        (⟨"ab".toList, 0, 2, 0, none, none⟩ : TextChunk).end_char)) :=
  ⟨⟨by decide, by decide, rfl⟩,
    chunk_with_parents_child_span ⟨500, 50, 1⟩ "ab".toList 10 1 1
      ⟨"ab".toList, 0, 2, 0, none, none⟩ ⟨"ab".toList, 0, 2, 1, some 0, none⟩
      (by decide) (by decide) (by decide)⟩

/-- C7 counterexample: an input crafted so that an overlap-extended child
chunk does not occur in its parent but its first 50 characters reoccur near
the parent's end; position recovery then yields a child span `[53, 153)`
inside a parent span `[0, 103)` — the child's span is not contained. -/
theorem chunk_with_parents_span_counterexample :
    ¬ (∀ parent ∈ (DocumentProcessor.chunk_with_parents ⟨500, 7, 1⟩
        ("azz. ".toList ++ List.replicate 48 'q' ++ "zz".toList ++
          List.replicate 48 'q') 300 100 2).1,
       ∀ child ∈ (DocumentProcessor.chunk_with_parents ⟨500, 7, 1⟩
        ("azz. ".toList ++ List.replicate 48 'q' ++ "zz".toList ++
          List.replicate 48 'q') 300 100 2).2,
       child.parent_index = some parent.chunk_index →
       parent.start_char ≤ child.start_char ∧
       child.end_char ≤ parent.end_char) := by decide

/-! ## C8: hybrid search with full semantic weight -/

theorem sortDesc_sorted_id : ∀ l : List SearchResult,
    l.Pairwise (fun a b => b.score ≤ a.score) → sortDesc l = l := by
  intro l
  induction l with
  | nil => intro _; rfl
  | cons x xs ih =>
    intro h
    rw [List.pairwise_cons] at h
    obtain ⟨hx, hxs⟩ := h
    show insertDesc x (sortDesc xs) = x :: xs
    rw [ih hxs]
    cases xs with
    | nil => rfl
    | cons y ys =>
      show (if x.score < y.score then y :: insertDesc x ys else x :: y :: ys) =
        x :: y :: ys
      rw [if_neg (not_lt.mpr (hx y (by simp)))]

/-- C8: with `semantic_weight = 1.0` the keyword component vanishes
(`1*s + 0*kw = s`), so the stable descending re-sort leaves the vector
store's descending-similarity candidate order untouched and `hybrid_search`
returns exactly the first `topK` vector-search results in their original
order. -/
theorem hybrid_search_weight_one (store : Nat → List SearchResult)
    (query : Str) (topK : Nat)
    (hsorted : (store (topK * 2)).Pairwise (fun a b => b.score ≤ a.score)) :
    hybrid_search store query topK 1 = (store (topK * 2)).take topK := by
  unfold hybrid_search
  dsimp only
  have hmap : (store (topK * 2)).map (fun r =>
      { r with score := 1 * r.score +
          (1 - 1) * keywordScore (queryTermSet query) (lowerStr r.content) }) =
      store (topK * 2) := by
    have hpt : ∀ r : SearchResult,
        ({ r with score := 1 * r.score +
            (1 - 1) * keywordScore (queryTermSet query) (lowerStr r.content) } :
          SearchResult) = r := by
      intro r
      cases r
      simp
    rw [List.map_congr_left (fun r _ => hpt r)]
    exact List.map_id _
  rw [hmap, sortDesc_sorted_id _ hsorted]

/-- Witness for C8 with two descending-score candidates and `topK = 1`. -/
theorem hybrid_search_weight_one_witness :
    ([(⟨0, ['a'], 1⟩ : SearchResult), ⟨1, ['b'], 0⟩].Pairwise
      (fun a b => b.score ≤ a.score)) ∧
    hybrid_search (fun _ => [⟨0, ['a'], 1⟩, ⟨1, ['b'], 0⟩]) ['a'] 1 1 =
      ([(⟨0, ['a'], 1⟩ : SearchResult), ⟨1, ['b'], 0⟩].take 1) :=
  ⟨by decide,
    hybrid_search_weight_one (fun _ => [⟨0, ['a'], 1⟩, ⟨1, ['b'], 0⟩]) ['a'] 1
      (by decide)⟩

/-- Witness for C10 at three spaces with `min_chunk_size = 2`. -/
theorem chunk_text_blank_long_empty_witness :
    ("   ".toList ≠ [] ∧ strBlank "   ".toList = true ∧
      (⟨500, 50, 2⟩ : DocumentProcessor).min_chunk_size ≤ "   ".toList.length) ∧
    DocumentProcessor.chunk_text ⟨500, 50, 2⟩ "   ".toList none none = [] :=
  ⟨⟨by decide, by decide, by decide⟩,
    chunk_text_blank_long_empty ⟨500, 50, 2⟩ "   ".toList none none
      (by decide) (by decide) (by decide)⟩

/-! ## C9: semantic-splitter failures are local per section -/

theorem renumFrom_append (k : Nat) (a b : List TextChunk) :
    renumFrom k (a ++ b) = renumFrom k a ++ renumFrom (k + a.length) b := by
  induction a generalizing k with
  | nil => simp [renumFrom]
  | cons c rest ih =>
    show { c with chunk_index := k } :: renumFrom (k + 1) (rest ++ b) =
      ({ c with chunk_index := k } :: renumFrom (k + 1) rest) ++
        renumFrom (k + (c :: rest).length) b
    have harith : k + 1 + rest.length = k + (c :: rest).length := by
      simp
      omega
    rw [ih (k + 1), harith, List.cons_append]

theorem renumFrom_length (k : Nat) (l : List TextChunk) :
    (renumFrom k l).length = l.length := by
  induction l generalizing k with
  | nil => rfl
  | cons c rest ih => simp [renumFrom, ih]

/-- The per-section step of the source fold equals appending the section's
spec-side chunk block, renumbered from the running index. -/
theorem semSectionStep_spec (p : DocumentProcessor) (backend : SemBackend)
    (cs co : Option Nat) (text : Str) (sec : MdSection)
    (st : List TextChunk × Nat) :
    semSectionStep p backend cs co text st sec =
      (st.1 ++ renumFrom st.2 (semSectionChunksSpec p backend cs co text sec),
       st.2 + (semSectionChunksSpec p backend cs co text sec).length) := by
  obtain ⟨acc, idx⟩ := st
  unfold semSectionStep semSectionChunksSpec
  dsimp only
  by_cases hshort : (pyStrip sec.content).length < p.min_chunk_size
  · rw [if_pos hshort, if_pos hshort]
    by_cases hb : ¬strBlank sec.content = true
    · rw [if_pos hb, if_pos hb]
      simp [renumFrom]
    · rw [if_neg hb, if_neg hb]
      simp [renumFrom]
  · rw [if_neg hshort, if_neg hshort]
    rcases hdocs : (match backend with
      | none => none
      | some ch => ch sec.content : Option (List Str)) with _ | docs
    · dsimp only
      clear hdocs
      induction (p.chunk_text sec.content cs co) generalizing acc idx with
      | nil => simp [renumFrom]
      | cons fc rest ih =>
        show rest.foldl _ (acc ++ [_], idx + 1) = _
        rw [ih (acc ++ [_]) (idx + 1)]
        simp [renumFrom]
        omega
    · dsimp only
      clear hdocs
      induction docs generalizing acc idx with
      | nil => simp [renumFrom]
      | cons d ds ih =>
        show ds.foldl _ (acc ++ [_], idx + 1) = _
        rw [ih (acc ++ [_]) (idx + 1)]
        simp [renumFrom]
        omega

theorem foldl_sections_spec (p : DocumentProcessor) (backend : SemBackend)
    (cs co : Option Nat) (text : Str) :
    ∀ (secs : List MdSection) (acc : List TextChunk) (idx : Nat),
    secs.foldl (semSectionStep p backend cs co text) (acc, idx) =
      (acc ++ renumFrom idx (secs.flatMap
        (semSectionChunksSpec p backend cs co text)),
       idx + (secs.flatMap (semSectionChunksSpec p backend cs co text)).length) := by
  intro secs
  induction secs with
  | nil => intro acc idx; simp [renumFrom]
  | cons sec rest ih =>
    intro acc idx
    show rest.foldl _ (semSectionStep p backend cs co text (acc, idx) sec) = _
    rw [semSectionStep_spec, ih]
    rw [List.flatMap_cons, renumFrom_append]
    simp [List.append_assoc]
    omega

/-- C9: the semantic splitter never propagates a backend failure.  Its
output is, section by section, the concatenation (globally renumbered) of:
the semantic backend's chunks for sections where the backend is available
and succeeds, and the recursive splitter's chunks — re-based to that
section — exactly for the sections where the backend is unavailable or
raises.  A failing section therefore affects no other section's chunks,
and feeding the splitter's output to `index_document` (with a working
embedder) still reports success, so backend failures are never surfaced as
indexing failures. -/
theorem semantic_split_local_fallback (p : DocumentProcessor)
    (backend : SemBackend) (text : Str) (cs co : Option Nat)
    (h1 : text ≠ []) (h2 : ¬ text.length < p.min_chunk_size) :
    (SemanticDocumentProcessor.chunk_text p backend text cs co =
      renumFrom 0 ((split_by_headers text).flatMap
        (semSectionChunksSpec p backend cs co text))) ∧
    (∀ sec : MdSection, ¬ (pyStrip sec.content).length < p.min_chunk_size →
      (backend = none ∨ ∃ ch, backend = some ch ∧ ch sec.content = none) →
      semSectionChunksSpec p backend cs co text sec =
        (p.chunk_text sec.content cs co).map (fun fc =>
          { fc with
            chunk_index := 0,
            start_char := fc.start_char + sec.start_char,
            end_char := fc.start_char + sec.start_char + fc.content.length,
            section_title := some sec.title })) ∧
    (∀ (sec : MdSection) (ch : Str → Option (List Str)) (docs : List Str),
      backend = some ch → ch sec.content = some docs →
      ¬ (pyStrip sec.content).length < p.min_chunk_size →
      semSectionChunksSpec p backend cs co text sec = docs.map (fun doc =>
        let f := pyFind (doc.take 50) text
        let s : Nat := if f = -1 then sec.start_char else f.toNat
        { content := doc, start_char := s, end_char := s + doc.length,
          chunk_index := 0, section_title := some sec.title })) ∧
    (∀ (doc : Doc) (embs : List (List ℚ)) (newIds : List Nat) (st : Stores)
      (sums : Option Str) (tags : Option (List Str)),
      ∃ b, (index_document doc sums tags
        (Except.ok (SemanticDocumentProcessor.chunk_text p backend text cs co))
        (fun _ => Except.ok embs) newIds st).1 = Except.ok b) := by
  refine ⟨?_, ?_, ?_, ?_⟩
  · unfold SemanticDocumentProcessor.chunk_text
    rw [if_neg h1, if_neg h2]
    rw [foldl_sections_spec]
    simp
  · intro sec hlong hfail
    unfold semSectionChunksSpec
    rw [if_neg hlong]
    rcases hfail with hfail | ⟨ch, hch, hfail⟩
    · subst hfail
      rfl
    · subst hch
      dsimp only
      rw [hfail]
  · intro sec ch docs hch hdocs hlong
    subst hch
    unfold semSectionChunksSpec
    rw [if_neg hlong]
    dsimp only
    rw [hdocs]
  · intro doc embs newIds st sums tags
    unfold index_document
    dsimp only
    by_cases hnil : SemanticDocumentProcessor.chunk_text p backend text cs co = []
    · rw [if_pos hnil]
      exact ⟨true, rfl⟩
    · rw [if_neg hnil]
      exact ⟨true, rfl⟩

/-- Witness for C9: an unavailable backend on `"ab"` with
`min_chunk_size = 2` (the whole document is one untitled section chunked by
the recursive fallback). -/
theorem semantic_split_local_fallback_witness :
    ("ab".toList ≠ [] ∧ ¬ "ab".toList.length <
      (⟨500, 50, 2⟩ : DocumentProcessor).min_chunk_size) ∧
    (SemanticDocumentProcessor.chunk_text ⟨500, 50, 2⟩ none "ab".toList none none =
      renumFrom 0 ((split_by_headers "ab".toList).flatMap
        (semSectionChunksSpec ⟨500, 50, 2⟩ none none none "ab".toList))) :=
  ⟨⟨by decide, by decide⟩,
    (semantic_split_local_fallback ⟨500, 50, 2⟩ none "ab".toList none none
      (by decide) (by decide)).1⟩
